import Mathlib

/-!
Verification of the shadowsocks-libev server core (src/encrypt.c, src/server.c)
against its natural-language specification.

Bytes are modelled as natural numbers (values < 256 where the code relies on
it).  Buffers are lists of bytes.  The external crypto libraries (OpenSSL /
mbedTLS / libsodium) are modelled abstractly: a stream/CFB cipher keyed by
(key, IV) is a keystream function from the ciphertext history to the next
keystream byte, a Salsa/ChaCha stream is a keystream function from the
absolute byte position, and HMAC-SHA1 is a function from (key, message) to a
20-byte digest.  Everything the repository itself computes is translated
directly from the C source.
-/

namespace Shadowsocks

/-! ### Cipher catalog (encrypt.c lines 103-200, encrypt.h constants) -/

/-- Method id of the password-seeded table cipher (encrypt.h enum, index 0). -/
def TABLE : ℕ := 0

/-- Method id of rc4 (index 1). -/
def RC4 : ℕ := 1

/-- Method id of rc4-md5 (index 2). -/
def RC4_MD5 : ℕ := 2

/-- Method id of salsa20 (index 15); the Salsa/ChaCha family is every id ≥ this. -/
def SALSA20 : ℕ := 15

/-- Method id of chacha20 (index 16). -/
def CHACHA20 : ℕ := 16

/-- Method id of chacha20-ietf (index 17). -/
def CHACHA20IETF : ℕ := 17

/-- Number of supported cipher methods (encrypt.h CIPHER_NUM). -/
def CIPHER_NUM : ℕ := 18

/-- Length of the truncated HMAC-SHA1 tag (encrypt.h ONETIMEAUTH_BYTES). -/
def ONETIMEAUTH_BYTES : ℕ := 10

/-- Length of the chunk-length field (encrypt.h CLEN_BYTES). -/
def CLEN_BYTES : ℕ := 2

/-- Length of a chunk header, CLEN_BYTES + ONETIMEAUTH_BYTES (encrypt.h AUTH_BYTES). -/
def AUTH_BYTES : ℕ := 12

/-- Bit flag in ATYP marking one-time authentication (encrypt.h, 0x10). -/
def ONETIMEAUTH_FLAG : ℕ := 16

/-- Mask extracting the address type from ATYP (encrypt.h, 0x0F). -/
def ADDRTYPE_MASK : ℕ := 15

/-- Block size of the Salsa/ChaCha stream ciphers (encrypt.h SODIUM_BLOCK_SIZE). -/
def SODIUM_BLOCK_SIZE : ℕ := 64

/-- Fixed receive buffer size (server.c BUF_SIZE). -/
def BUF_SIZE : ℕ := 2048

/-- The ordered cipher-name catalog, encrypt.c `supported_ciphers` (lines 103-122). -/
def supported_ciphers : List String :=
  ["table", "rc4", "rc4-md5", "aes-128-cfb", "aes-192-cfb", "aes-256-cfb",
   "bf-cfb", "camellia-128-cfb", "camellia-192-cfb", "camellia-256-cfb",
   "cast5-cfb", "des-cfb", "idea-cfb", "rc2-cfb", "seed-cfb",
   "salsa20", "chacha20", "chacha20-ietf"]

/-- Per-method IV sizes, encrypt.c `supported_ciphers_iv_size` (lines 194-196). -/
def supported_ciphers_iv_size : List ℕ :=
  [0, 0, 16, 16, 16, 16, 8, 16, 16, 16, 8, 8, 8, 8, 16, 8, 8, 12]

/-- Per-method key sizes, encrypt.c `supported_ciphers_key_size` (lines 198-200). -/
def supported_ciphers_key_size : List ℕ :=
  [0, 16, 16, 16, 24, 32, 16, 16, 24, 32, 16, 8, 16, 16, 16, 32, 32, 32]

/-- The IV length of a method as recorded in the implementation table.  The
global `enc_iv_len` set by `enc_key_init` equals this table entry for every
method: `enc_key_init` sets 16 for RC4_MD5 (= the table entry), copies the
table entry for the Salsa/ChaCha family, and for the EVP ciphers queries the
library, whose sizes coincide with the table. -/
def enc_iv_size (method : ℕ) : ℕ := supported_ciphers_iv_size.getD method 0

/-! ### safe_memcmp (encrypt.c lines 202-211) -/

/-- Constant-time comparison of the first `n` bytes, encrypt.c `safe_memcmp`:
or-accumulates the xor of each byte pair and returns `!!ret`. -/
def safe_memcmp (s1 s2 : List ℕ) (n : ℕ) : ℕ :=
  if (List.range n).foldl (fun r i => r ||| (s1.getD i 0 ^^^ s2.getD i 0)) 0 = 0
  then 0 else 1

/-! ### Network byte order helpers (htons/ntohs/htonl as used by the code) -/

/-- Big-endian encoding of a 16-bit length, as stored by `htons` after the
code's `(uint16_t)` truncation. -/
def htons (n : ℕ) : List ℕ := [n / 256 % 256, n % 256]

/-- Big-endian 16-bit read, as `ntohs` over the first two buffer bytes. -/
def ntohs (l : List ℕ) : ℕ := l.getD 0 0 * 256 + l.getD 1 0

/-- Big-endian encoding of a 32-bit counter, as stored by `htonl`. -/
def htonl (n : ℕ) : List ℕ :=
  [n / 16777216 % 256, n / 65536 % 256, n / 256 % 256, n % 256]

/-! ### Table cipher (encrypt.c lines 261-386) -/

/-- Comparator used to shuffle the table, encrypt.c `random_compare`
(lines 261-267): `a % (x + i) - a % (y + i)` as a signed value. -/
def random_compare (x y : ℕ) (i : ℕ) (a : ℕ) : ℤ :=
  ((a % (x + i) : ℕ) : ℤ) - ((a % (y + i) : ℕ) : ℤ)

/-- Stable two-way merge, encrypt.c `merge` (lines 269-314): take from the
left run while the comparator is ≤ 0. -/
def merge (salt : ℕ) (key : ℕ) : List ℕ → List ℕ → List ℕ
  | [], r => r
  | l, [] => l
  | x :: ls, y :: rs =>
    if random_compare x y salt key ≤ 0 then x :: merge salt key ls (y :: rs)
    else y :: merge salt key (x :: ls) rs
termination_by l r => l.length + r.length

/-- Merge sort, encrypt.c `merge_sort` (lines 316-337): the left run holds
the first `length - length / 2` elements, the right run the remaining
`length / 2`. -/
def merge_sort (salt key : ℕ) (l : List ℕ) : List ℕ :=
  if l.length ≤ 1 then l
  else
    let middle := l.length / 2
    let llength := l.length - middle
    merge salt key (merge_sort salt key (l.take llength)) (merge_sort salt key (l.drop llength))
termination_by l.length
decreasing_by
  · simp only [List.length_take]; omega
  · simp only [List.length_drop]; omega

/-- Encrypt table generation, encrypt.c `enc_table_init` (lines 365-386):
start from the identity table and merge-sort it 1023 times with salts
1..1023.  The 64-bit `key` derived from the password MD5 is a parameter
(the MD5 itself is computed by the external crypto library). -/
def enc_table_init (key : ℕ) : List ℕ :=
  (List.range 1023).foldl (fun t i => merge_sort (i + 1) key t) (List.range 256)

/-- Decrypt table generation, encrypt.c `enc_table_init` final loop:
`dec_table[enc_table[i]] = i` for each `i`. -/
def dec_table_init (key : ℕ) : List ℕ :=
  let e := enc_table_init key
  (List.range 256).foldl (fun d i => d.set (e.getD i 0) i) (List.replicate 256 0)

/-! ### Stream cipher model

The EVP backends (OpenSSL / PolarSSL / mbedTLS) run the configured cipher in
a stream or CFB mode.  In every such mode each keystream byte is a function
of the key, the IV and the ciphertext bytes already processed by the
context, encryption xors the plaintext with the keystream and decryption
xors the ciphertext with the same keystream.  We model a keyed context by
the keystream function `f` (key and IV baked in) applied to the ciphertext
history.  The Salsa/ChaCha family keystream is a pure function of key,
nonce and absolute byte position, modelled by `g`. -/

/-- Modelled `cipher_context_update` with `enc = 1` (encrypt.c lines
1044-1070 plus the external library): returns the ciphertext and the
updated context history. -/
def cipher_update_enc (f : List ℕ → ℕ) : List ℕ → List ℕ → List ℕ × List ℕ
  | h, [] => ([], h)
  | h, p :: ps =>
    let c := p ^^^ f h
    let r := cipher_update_enc f (h ++ [c]) ps
    (c :: r.1, r.2)

/-- Modelled `cipher_context_update` with `enc = 0`: returns the plaintext
and the updated context history. -/
def cipher_update_dec (f : List ℕ → ℕ) : List ℕ → List ℕ → List ℕ × List ℕ
  | h, [] => ([], h)
  | h, c :: cs =>
    let p := c ^^^ f h
    let r := cipher_update_dec f (h ++ [c]) cs
    (p :: r.1, r.2)

/-- Byte-wise xor against the keystream `g` starting at position `pos`. -/
def xor_ic_go (g : ℕ → ℕ) : ℕ → List ℕ → List ℕ
  | _, [] => []
  | pos, b :: bs => (b ^^^ g pos) :: xor_ic_go g (pos + 1) bs

/-- Modelled libsodium `crypto_stream_xor_ic` (encrypt.c lines 245-259):
xor the message with the keystream starting at block counter `ic`
(byte position `ic * SODIUM_BLOCK_SIZE`). -/
def crypto_stream_xor_ic (g : ℕ → ℕ) (m : List ℕ) (ic : ℕ) : List ℕ :=
  xor_ic_go g (ic * SODIUM_BLOCK_SIZE) m

/-! ### Replay cache -/

/-- Modelled from the spec: membership test of the replay cache implemented
by cache.c, which is not under src/.  The cache is a bounded set of the raw
bytes of previously admitted decryption IVs; the spec fixes capacity 256
and oldest-first (insertion-order) eviction.  We represent it as a list,
oldest first, newest last. -/
def cache_key_exist (cache : List (List ℕ)) (k : List ℕ) : Bool :=
  cache.contains k

/-- Modelled from the spec: insertion into the replay cache implemented by
cache.c (not under src/): append the new key; if over the 256-entry
capacity, evict the oldest entry. -/
def cache_insert (cache : List (List ℕ)) (k : List ℕ) : List (List ℕ) :=
  if 256 < (cache ++ [k]).length then (cache ++ [k]).tail else cache ++ [k]

/-! ### Per-direction crypto context and ss_encrypt / ss_decrypt -/

/-- State of one crypto direction (encrypt.h `enc_ctx`): the `init` flag,
the session IV, the modelled EVP context state (ciphertext history), and
the Salsa/ChaCha running byte counter. -/
structure enc_ctx_t where
  init : Bool
  iv : List ℕ
  hist : List ℕ
  counter : ℕ
deriving DecidableEq

/-- Per-connection crypto context creation (server.c `new_server` lines
1181-1189 with encrypt.c `enc_ctx_init`): a NULL context for the table
method, otherwise a zeroed context; the encrypt side holds the freshly
generated random IV `iv`. -/
def mk_enc_ctx (method : ℕ) (iv : List ℕ) : Option enc_ctx_t :=
  if method = TABLE then none
  else some { init := false, iv := iv, hist := [], counter := 0 }

/-- Decrypt-side context creation: zeroed; the IV arrives on the wire. -/
def mk_dec_ctx (method : ℕ) : Option enc_ctx_t :=
  if method = TABLE then none
  else some { init := false, iv := [], hist := [], counter := 0 }

/-- encrypt.c `ss_encrypt` (lines 1182-1253).  On a fresh context the random
IV is prepended to the output and the context is initialized; the
Salsa/ChaCha branch pads to the block boundary with `counter % 64` zero
bytes and advances the counter by the plaintext length; the NULL-context
branch is the pointwise table substitution. -/
def ss_encrypt (method : ℕ) (f : List ℕ → ℕ) (g : ℕ → ℕ) (tbl : List ℕ)
    (ctx : Option enc_ctx_t) (plain : List ℕ) : List ℕ × Option enc_ctx_t :=
  match ctx with
  | some c =>
    let ivOut : List ℕ := if c.init then [] else c.iv
    let c1 : enc_ctx_t :=
      if c.init then c else { c with hist := [], counter := 0, init := true }
    if SALSA20 ≤ method then
      let padding := c1.counter % SODIUM_BLOCK_SIZE
      let padded := List.replicate padding 0 ++ plain
      let out := crypto_stream_xor_ic g padded (c1.counter / SODIUM_BLOCK_SIZE)
      (ivOut ++ out.drop padding, some { c1 with counter := c1.counter + plain.length })
    else
      let r := cipher_update_enc f c1.hist plain
      (ivOut ++ r.1, some { c1 with hist := r.2 })
  | none => (plain.map (fun b => tbl.getD b 0), none)

/-- encrypt.c `ss_decrypt` (lines 1328-1410).  On a fresh context the
leading `enc_iv_size method` bytes are consumed as the IV; for every method
at or above RC4_MD5 the IV is checked against the shared replay cache: a
hit fails the call (result `none`) without inserting, a miss inserts the IV.
The pair returned carries the call result and the cache afterwards. -/
def ss_decrypt (method : ℕ) (f : List ℕ → ℕ) (g : ℕ → ℕ) (dtbl : List ℕ)
    (cache : List (List ℕ)) (ctx : Option enc_ctx_t) (cipher : List ℕ) :
    Option (List ℕ × Option enc_ctx_t) × List (List ℕ) :=
  match ctx with
  | some c =>
    let iv_len := if c.init then 0 else enc_iv_size method
    let iv := if c.init then c.iv else cipher.take iv_len
    if ¬c.init ∧ RC4_MD5 ≤ method ∧ cache_key_exist cache iv then
      (none, cache)
    else
      let cache' := if ¬c.init ∧ RC4_MD5 ≤ method then cache_insert cache iv else cache
      let c1 : enc_ctx_t :=
        if c.init then c else { init := true, iv := iv, hist := [], counter := 0 }
      if SALSA20 ≤ method then
        let padding := c1.counter % SODIUM_BLOCK_SIZE
        let padded := List.replicate padding 0 ++ cipher.drop iv_len
        let plain := (crypto_stream_xor_ic g padded (c1.counter / SODIUM_BLOCK_SIZE)).drop padding
        (some (plain, some { c1 with counter := c1.counter + (cipher.length - iv_len) }), cache')
      else
        let r := cipher_update_dec f c1.hist (cipher.drop iv_len)
        (some (r.1, some { c1 with hist := r.2 }), cache')
  | none => (some (cipher.map (fun b => dtbl.getD b 0), none), cache)

/-! ### One-time auth and chunk auth (encrypt.c lines 1072-1115, 1531-1617)

HMAC-SHA1 is computed by the external crypto library; it is modelled by an
abstract function `hmac : key → message → 20-byte digest`. -/

/-- encrypt.c `ss_onetimeauth_verify` (lines 1097-1115): HMAC over the
buffer minus the trailing tag, keyed by `iv ++ key`, compared against the
trailing `ONETIMEAUTH_BYTES` bytes with `safe_memcmp` (0 means match). -/
def ss_onetimeauth_verify (hmac : List ℕ → List ℕ → List ℕ)
    (iv key buf : List ℕ) : ℕ :=
  let auth_key := iv ++ key
  let len := buf.length - ONETIMEAUTH_BYTES
  let hash := hmac auth_key (buf.take len)
  safe_memcmp (buf.drop len) hash ONETIMEAUTH_BYTES

/-- Chunk reassembly state (encrypt.h `chunk`): the partially accumulated
frame (`buf`, whose length is the C `idx`), the announced payload length
`len`, and the running chunk counter. -/
structure chunk_t where
  buf : List ℕ
  len : ℕ
  counter : ℕ
deriving DecidableEq

/-- encrypt.c `ss_gen_hash` (lines 1589-1617): frame one plaintext chunk as
`LEN:2 | MAC:10 | PAYLOAD`, with `MAC = HMAC(iv ++ htonl counter, payload)`
truncated to 10 bytes, and increment the counter. -/
def ss_gen_hash (hmac : List ℕ → List ℕ → List ℕ) (iv : List ℕ)
    (buf : List ℕ) (counter : ℕ) : List ℕ × ℕ :=
  let key := iv ++ htonl counter
  let hash := (hmac key buf).take ONETIMEAUTH_BYTES
  (htons buf.length ++ hash ++ buf, counter + 1)

/-- The byte-by-byte loop of encrypt.c `ss_check_hash` (lines 1540-1582):
each input byte is appended to the chunk buffer; when two bytes are in, the
announced length is latched; when `len + AUTH_BYTES` bytes are in, the MAC
is recomputed and compared — a mismatch fails the call (`none`), a match
appends the payload to the output, resets the chunk buffer and increments
the counter. -/
def ss_check_hash_go (hmac : List ℕ → List ℕ → List ℕ) (iv : List ℕ) :
    chunk_t → List ℕ → List ℕ → Option (List ℕ × chunk_t)
  | ch, out, [] => some (out, ch)
  | ch, out, b :: rest =>
    let cbuf := ch.buf ++ [b]
    let clen := if cbuf.length = CLEN_BYTES then ntohs cbuf else ch.len
    if cbuf.length = clen + AUTH_BYTES then
      let key := iv ++ htonl ch.counter
      let hash := hmac key (cbuf.drop AUTH_BYTES)
      if safe_memcmp hash (cbuf.drop CLEN_BYTES) ONETIMEAUTH_BYTES = 0 then
        ss_check_hash_go hmac iv ⟨[], clen, ch.counter + 1⟩ (out ++ cbuf.drop AUTH_BYTES) rest
      else none
    else
      ss_check_hash_go hmac iv ⟨cbuf, clen, ch.counter⟩ out rest

/-- encrypt.c `ss_check_hash` (lines 1531-1587): run the loop over the
received bytes; on success the output buffer holds the verified payloads in
order and the chunk state carries any partial frame. -/
def ss_check_hash (hmac : List ℕ → List ℕ → List ℕ) (iv : List ℕ)
    (ch : chunk_t) (buf : List ℕ) : Option (List ℕ × chunk_t) :=
  ss_check_hash_go hmac iv ch [] buf

/-- Emission of a chunk stream: frame each chunk with `ss_gen_hash`,
threading the emitter's counter, and concatenate the frames (this is what
the client side / local.c does with the request payload). -/
def emit_chunks (hmac : List ℕ → List ℕ → List ℕ) (iv : List ℕ) :
    ℕ → List (List ℕ) → List ℕ × ℕ
  | c, [] => ([], c)
  | c, p :: ps =>
    let fr := ss_gen_hash hmac iv p c
    let rest := emit_chunks hmac iv fr.2 ps
    (fr.1 ++ rest.1, rest.2)

/-! ### Server stage-0 handling (server.c) -/

/-- server.c `parse_header_len` (lines 217-233). -/
def parse_header_len (atyp : ℕ) (data : List ℕ) (off : ℕ) : ℕ :=
  (if atyp &&& ADDRTYPE_MASK = 1 then 4
   else if atyp &&& ADDRTYPE_MASK = 3 then data.getD off 0 + 1
   else if atyp &&& ADDRTYPE_MASK = 4 then 16
   else 0) + 2

/-- Outcome of the stage-0 one-time-auth block. -/
inductive AuthStep where
  | closed : AuthStep
  | ok (buf : List ℕ) (serverAuth : Bool) : AuthStep
deriving DecidableEq

/-- The one-time-auth block of server.c `server_recv_cb` stage 0 (lines
629-658): if the configured auth flag or the ONETIMEAUTH_FLAG bit of ATYP
is set, the header MAC is verified over the first
`1 + header_len + ONETIMEAUTH_BYTES` bytes with key `IV ++ K`; too-short
buffers and MAC mismatches close the connection, success sets the
connection's auth flag to 1. -/
def stage0_auth_step (hmac : List ℕ → List ℕ → List ℕ) (cfgAuth : Bool)
    (key ivd : List ℕ) (buf : List ℕ) (serverAuth : Bool) : AuthStep :=
  let atyp := buf.getD 0 0
  if cfgAuth = true ∨ atyp &&& ONETIMEAUTH_FLAG ≠ 0 then
    let header_len := parse_header_len atyp buf 1
    if buf.length < 1 + header_len + ONETIMEAUTH_BYTES then AuthStep.closed
    else if ss_onetimeauth_verify hmac ivd key
        (buf.take (1 + header_len + ONETIMEAUTH_BYTES)) ≠ 0 then AuthStep.closed
    else AuthStep.ok buf true
  else AuthStep.ok buf serverAuth

/-- The stage-5 chunk verification of server.c `server_recv_cb` (line 562):
`ss_check_hash` runs exactly when the connection's auth flag is set. -/
def stage5_verify (hmac : List ℕ → List ℕ → List ℕ) (iv : List ℕ)
    (serverAuth : Bool) (ch : chunk_t) (buf : List ℕ) :
    Option (List ℕ × chunk_t) :=
  if serverAuth then ss_check_hash hmac iv ch buf else some (buf, ch)

/-- Outcome of a stage-0 receive event. -/
inductive Stage0Recv where
  | wait (buf : List ℕ) : Stage0Recv
  | connClosed : Stage0Recv
  | decrypted (plain : List ℕ) (ctx : Option enc_ctx_t) (cache : List (List ℕ)) : Stage0Recv
deriving DecidableEq

/-- The stage-0 prefix of server.c `server_recv_cb` (lines 532-558): append
the received bytes; if the accumulated length is at most the IV length,
return and keep waiting (retaining the buffer, stage unchanged); otherwise
run `ss_decrypt`, closing the connection when it fails. -/
def server_recv_stage0 (method : ℕ) (f : List ℕ → ℕ) (g : ℕ → ℕ)
    (dtbl : List ℕ) (cache : List (List ℕ)) (dctx : Option enc_ctx_t)
    (buf recvd : List ℕ) : Stage0Recv :=
  let buf' := buf ++ recvd
  if buf'.length ≤ enc_iv_size method then Stage0Recv.wait buf'
  else
    let r := ss_decrypt method f g dtbl cache dctx buf'
    match r.1 with
    | none => Stage0Recv.connClosed
    | some (plain, ctx') => Stage0Recv.decrypted plain ctx' r.2

/-! ### Send buffers and the partial-write discipline (server.c) -/

/-- A send buffer (encrypt.h `buffer_t`, capacity omitted): `array` holds
the bytes, the unsent slice is the `len` bytes starting at `idx`. -/
structure buffer_t where
  array : List ℕ
  idx : ℕ
  len : ℕ
deriving DecidableEq

/-- Buffer effect of server.c `server_send_cb` (lines 850-858) when `send`
accepts `s` bytes: a short send retains the remainder with
`len -= s, idx += s`; a full send resets both to 0. -/
def server_send_step (buf : buffer_t) (s : ℕ) : buffer_t :=
  if s < buf.len then { buf with len := buf.len - s, idx := buf.idx + s }
  else { buf with len := 0, idx := 0 }

/-- Buffer effect of server.c `remote_send_cb` (lines 1076-1084), identical
discipline. -/
def remote_send_step (buf : buffer_t) (s : ℕ) : buffer_t :=
  if s < buf.len then { buf with len := buf.len - s, idx := buf.idx + s }
  else { buf with len := 0, idx := 0 }

/-- The unsent slice `array[idx .. idx+len)` offered to the next send. -/
def unsent (buf : buffer_t) : List ℕ := (buf.array.drop buf.idx).take buf.len

/-- Repeated send-ready callbacks: each call accepts `min s len` bytes of
the offered slice (a send never accepts more than offered). -/
def drain_steps (buf : buffer_t) (steps : List ℕ) : buffer_t :=
  steps.foldl (fun b s => remote_send_step b (min s b.len)) buf

/-! ### Cipher initialization (encrypt.c `enc_init`, lines 1510-1529) -/

/-- Which initialization path `enc_init` took, with the returned method id. -/
inductive EncInitResult where
  | tableCipher (m : ℕ) : EncInitResult
  | keyCipher (m : ℕ) : EncInitResult
deriving DecidableEq

/-- encrypt.c `enc_init`: look the method name up in the catalog; an unknown
name logs "use table instead" and falls back to `m = TABLE`; the table
method runs `enc_table_init`, every other method runs `enc_key_init`; the
chosen method id is returned. -/
def enc_init (method : Option String) : EncInitResult :=
  let m : ℕ :=
    match method with
    | none => TABLE
    | some s =>
      let i := supported_ciphers.findIdx (fun c => c == s)
      if CIPHER_NUM ≤ i then TABLE else i
  if m = TABLE then EncInitResult.tableCipher TABLE else EncInitResult.keyCipher m

/-! ### The relay-stage event system (server.c stage 5)

State of the two byte pumps: the four watcher flags, the two send buffers'
`len`/`idx` fields exactly as the code updates them, and per-buffer ghost
flags `srv_parked` / `rem_parked` recording the claim's notion of a
non-empty pending send buffer: a send toward that side returned EAGAIN or a
short count and the parked bytes have not yet fully drained.  `closed`
records that `close_and_free_server` / `close_and_free_remote` ran (both
stop every watcher). -/
structure RelayState where
  srv_read : Bool
  srv_send : Bool
  rem_read : Bool
  rem_send : Bool
  srv_len : ℕ
  srv_idx : ℕ
  rem_len : ℕ
  rem_idx : ℕ
  srv_parked : Bool
  rem_parked : Bool
  closed : Bool
deriving DecidableEq

/-- Relay-stage entry (server.c `remote_send_cb` lines 1039-1044 and
1081-1091): both read watchers active, both send watchers stopped, both
buffers drained. -/
def relay_init : RelayState :=
  { srv_read := true, srv_send := false, rem_read := true, rem_send := false,
    srv_len := 0, srv_idx := 0, rem_len := 0, rem_idx := 0,
    srv_parked := false, rem_parked := false, closed := false }

/-- Teardown: `close_and_free_server` + `close_and_free_remote` stop every
watcher and mark the connection closed. -/
def closeAll (s : RelayState) : RelayState :=
  { s with srv_read := false, srv_send := false, rem_read := false,
           rem_send := false, closed := true }

/-- One event-loop callback firing in the relay stage, with the buffer and
watcher effects taken line by line from server.c.  A callback can only fire
while its watcher is active.  `L` is the post-decrypt (resp. post-encrypt)
payload length, `n` the byte count accepted by `send`. -/
inductive Step : RelayState → RelayState → Prop where
  | srvRecvClose (s : RelayState) (h : s.closed = false) (hw : s.srv_read = true) :
      Step s (closeAll s)
  | srvRecvOk (s : RelayState) (L : ℕ) (h : s.closed = false) (hw : s.srv_read = true) :
      Step s { s with rem_len := L }
  | srvRecvAgain (s : RelayState) (L : ℕ) (h : s.closed = false) (hw : s.srv_read = true) :
      Step s { s with rem_len := L, rem_idx := 0, srv_read := false,
                      rem_send := true, rem_parked := true }
  | srvRecvShort (s : RelayState) (L n : ℕ) (h : s.closed = false)
      (hw : s.srv_read = true) (hn : n < L) :
      Step s { s with rem_len := L - n, rem_idx := n, srv_read := false,
                      rem_send := true, rem_parked := true }
  | remSendEmpty (s : RelayState) (h : s.closed = false) (hw : s.rem_send = true)
      (hl : s.rem_len = 0) : Step s (closeAll s)
  | remSendErr (s : RelayState) (h : s.closed = false) (hw : s.rem_send = true) :
      Step s (closeAll s)
  | remSendAgain (s : RelayState) (h : s.closed = false) (hw : s.rem_send = true)
      (hl : s.rem_len ≠ 0) : Step s s
  | remSendShort (s : RelayState) (n : ℕ) (h : s.closed = false)
      (hw : s.rem_send = true) (hn : n < s.rem_len) :
      Step s { s with rem_len := s.rem_len - n, rem_idx := s.rem_idx + n }
  | remSendFull (s : RelayState) (h : s.closed = false) (hw : s.rem_send = true)
      (hl : s.rem_len ≠ 0) :
      Step s { s with rem_len := 0, rem_idx := 0, rem_send := false,
                      srv_read := true, rem_parked := false }
  | remRecvClose (s : RelayState) (h : s.closed = false) (hw : s.rem_read = true) :
      Step s (closeAll s)
  | remRecvOk (s : RelayState) (L : ℕ) (h : s.closed = false) (hw : s.rem_read = true) :
      Step s { s with srv_len := L }
  | remRecvAgain (s : RelayState) (L : ℕ) (h : s.closed = false) (hw : s.rem_read = true) :
      Step s { s with srv_len := L, srv_idx := 0, rem_read := false,
                      srv_send := true, srv_parked := true }
  | remRecvShort (s : RelayState) (L n : ℕ) (h : s.closed = false)
      (hw : s.rem_read = true) (hn : n < L) :
      Step s { s with srv_len := L - n, srv_idx := n, rem_read := false,
                      srv_send := true, srv_parked := true }
  | srvSendEmpty (s : RelayState) (h : s.closed = false) (hw : s.srv_send = true)
      (hl : s.srv_len = 0) : Step s (closeAll s)
  | srvSendErr (s : RelayState) (h : s.closed = false) (hw : s.srv_send = true) :
      Step s (closeAll s)
  | srvSendAgain (s : RelayState) (h : s.closed = false) (hw : s.srv_send = true)
      (hl : s.srv_len ≠ 0) : Step s s
  | srvSendShort (s : RelayState) (n : ℕ) (h : s.closed = false)
      (hw : s.srv_send = true) (hn : n < s.srv_len) :
      Step s { s with srv_len := s.srv_len - n, srv_idx := s.srv_idx + n }
  | srvSendFull (s : RelayState) (h : s.closed = false) (hw : s.srv_send = true)
      (hl : s.srv_len ≠ 0) :
      Step s { s with srv_len := 0, srv_idx := 0, srv_send := false,
                      rem_read := true, srv_parked := false }
  | timeoutClose (s : RelayState) (h : s.closed = false) : Step s (closeAll s)

/-- States reachable in the relay stage. -/
inductive Reachable : RelayState → Prop where
  | entry : Reachable relay_init
  | step {s s' : RelayState} : Reachable s → Step s s' → Reachable s'

/-- Inductive strengthening for the relay stage: while the connection is
open, each parked flag coincides with its send watcher, and an active send
watcher implies the originating read watcher is stopped. -/
def RelayInv (s : RelayState) : Prop :=
  s.closed = false →
    s.rem_parked = s.rem_send ∧ s.srv_parked = s.srv_send ∧
    (s.rem_send = true → s.srv_read = false) ∧
    (s.srv_send = true → s.rem_read = false)

/-! ### The cipher-sizes table of the spec (spec.md section 6) -/

/-- The cipher-sizes table exactly as written in the spec, section 6:
(method, key bytes, IV bytes), in catalog order. -/
def spec_cipher_sizes : List (String × ℕ × ℕ) :=
  [("table", 0, 0), ("rc4", 16, 0), ("rc4-md5", 16, 16),
   ("aes-128-cfb", 16, 16), ("aes-192-cfb", 24, 16), ("aes-256-cfb", 32, 16),
   ("bf-cfb", 16, 8),
   ("camellia-128-cfb", 16, 16), ("camellia-192-cfb", 24, 16), ("camellia-256-cfb", 32, 16),
   ("cast5-cfb", 16, 8), ("des-cfb", 8, 8), ("idea-cfb", 16, 8),
   ("rc2-cfb", 16, 8), ("seed-cfb", 16, 16),
   ("salsa20", 32, 8), ("chacha20", 32, 8), ("chacha20-ietf", 32, 12)]

/-! ## Theorems -/

/-! ### Helper lemmas about bitwise operations and `safe_memcmp` -/

theorem nat_lor_eq_zero_iff (a b : ℕ) : a ||| b = 0 ↔ a = 0 ∧ b = 0 := by
  constructor
  · intro h
    constructor <;> refine Nat.eq_of_testBit_eq fun i => ?_ <;>
      have hh := congrArg (fun x => Nat.testBit x i) h <;>
      simp only [Nat.testBit_lor, Nat.zero_testBit, Bool.or_eq_false_iff] at hh <;>
      simp [hh.1, hh.2]
  · rintro ⟨rfl, rfl⟩; rfl

theorem foldl_or_eq_zero_iff (gf : ℕ → ℕ) (l : List ℕ) (a : ℕ) :
    l.foldl (fun r i => r ||| gf i) a = 0 ↔ a = 0 ∧ ∀ i ∈ l, gf i = 0 := by
  induction l generalizing a with
  | nil => simp
  | cons x xs ih =>
    simp only [List.foldl_cons, ih, nat_lor_eq_zero_iff, List.mem_cons]
    constructor
    · rintro ⟨⟨h1, h2⟩, h3⟩
      exact ⟨h1, fun i hi => hi.elim (fun he => he ▸ h2) (h3 i)⟩
    · rintro ⟨h1, h2⟩
      exact ⟨⟨h1, h2 x (Or.inl rfl)⟩, fun i hi => h2 i (Or.inr hi)⟩

theorem safe_memcmp_eq_zero_iff (s1 s2 : List ℕ) (n : ℕ) :
    safe_memcmp s1 s2 n = 0 ↔ ∀ i < n, s1.getD i 0 = s2.getD i 0 := by
  unfold safe_memcmp
  split
  case isTrue h =>
    rw [foldl_or_eq_zero_iff] at h
    simp only [eq_self_iff_true, true_iff]
    intro i hi
    exact Nat.xor_eq_zero.mp (h.2 i (List.mem_range.mpr hi))
  case isFalse h =>
    simp only [one_ne_zero, false_iff]
    intro hc
    exact h ((foldl_or_eq_zero_iff _ _ _).mpr
      ⟨rfl, fun i hi => Nat.xor_eq_zero.mpr (hc i (List.mem_range.mp hi))⟩)

theorem take_eq_take_iff_getD (s1 s2 : List ℕ) (n : ℕ)
    (h1 : n ≤ s1.length) (h2 : n ≤ s2.length) :
    s1.take n = s2.take n ↔ ∀ i < n, s1.getD i 0 = s2.getD i 0 := by
  constructor
  · intro h i hi
    have := congrArg (fun l => List.getD l i 0) h
    simpa [List.getD_eq_getElem?_getD, List.getElem?_take_of_lt hi] using this
  · intro h
    apply List.ext_getElem
    · simp [List.length_take]; omega
    · intro i hi1 hi2
      rw [List.length_take] at hi1
      have hi : i < n := lt_of_lt_of_le hi1 (min_le_left _ _)
      have hs1 : i < s1.length := by omega
      have hs2 : i < s2.length := by omega
      rw [List.getElem_take, List.getElem_take]
      have := h i hi
      rwa [List.getD_eq_getElem s1 0 hs1, List.getD_eq_getElem s2 0 hs2] at this

/-- C10: `safe_memcmp(s1, s2, n)` returns 0 exactly when the first `n` bytes
of `s1` and `s2` are pairwise equal and 1 otherwise; hence the one-time-auth
verifier accepts exactly when the received 10-byte tag equals the leftmost
10 bytes of the computed HMAC. -/
theorem safe_memcmp_decides_equality :
    (∀ (s1 s2 : List ℕ) (n : ℕ), n ≤ s1.length → n ≤ s2.length →
      safe_memcmp s1 s2 n = if s1.take n = s2.take n then 0 else 1) ∧
    (∀ (hmac : List ℕ → List ℕ → List ℕ) (iv key buf : List ℕ),
      ONETIMEAUTH_BYTES ≤ buf.length →
      ONETIMEAUTH_BYTES ≤ (hmac (iv ++ key) (buf.take (buf.length - ONETIMEAUTH_BYTES))).length →
      (ss_onetimeauth_verify hmac iv key buf = 0 ↔
        buf.drop (buf.length - ONETIMEAUTH_BYTES) =
          (hmac (iv ++ key) (buf.take (buf.length - ONETIMEAUTH_BYTES))).take ONETIMEAUTH_BYTES)) := by
  have hmain : ∀ (s1 s2 : List ℕ) (n : ℕ), n ≤ s1.length → n ≤ s2.length →
      safe_memcmp s1 s2 n = if s1.take n = s2.take n then 0 else 1 := by
    intro s1 s2 n h1 h2
    split
    case isTrue h =>
      exact (safe_memcmp_eq_zero_iff s1 s2 n).mpr
        ((take_eq_take_iff_getD s1 s2 n h1 h2).mp h)
    case isFalse h =>
      have hcases : safe_memcmp s1 s2 n = 0 ∨ safe_memcmp s1 s2 n = 1 := by
        unfold safe_memcmp; split
        · exact Or.inl rfl
        · exact Or.inr rfl
      rcases hcases with h0 | hone
      · exact absurd ((take_eq_take_iff_getD s1 s2 n h1 h2).mpr
          ((safe_memcmp_eq_zero_iff s1 s2 n).mp h0)) h
      · exact hone
  refine ⟨hmain, ?_⟩
  intro hmac iv key buf hlen hh
  unfold ss_onetimeauth_verify
  set hash := hmac (iv ++ key) (buf.take (buf.length - ONETIMEAUTH_BYTES)) with hhash
  have hdl : (buf.drop (buf.length - ONETIMEAUTH_BYTES)).length = ONETIMEAUTH_BYTES := by
    simp [List.length_drop]; omega
  rw [hmain _ _ _ (by omega) hh]
  have hto : (buf.drop (buf.length - ONETIMEAUTH_BYTES)).take ONETIMEAUTH_BYTES =
      buf.drop (buf.length - ONETIMEAUTH_BYTES) :=
    List.take_of_length_le (by omega)
  constructor
  · intro h
    split at h
    case isTrue heq => rw [← hto, heq]
    case isFalse => omega
  · intro h
    rw [if_pos (by rw [hto, h])]

/-- Witness for C10 at concrete inputs. -/
theorem safe_memcmp_decides_equality_witness :
    safe_memcmp [1, 2, 9] [1, 2, 7] 2 = 0 :=
  (safe_memcmp_decides_equality.1 [1, 2, 9] [1, 2, 7] 2
    (by decide) (by decide)).trans (by decide)

/-! ### C9: the cipher-sizes table -/

/-- C9: for every method in the ordered catalog, the key and IV lengths in
the implementation's tables equal the sizes of the spec's cipher-sizes
table, row by row. -/
theorem cipher_size_catalog :
    supported_ciphers.zip (supported_ciphers_key_size.zip supported_ciphers_iv_size) =
      spec_cipher_sizes := by
  rfl

/-! ### C4: unknown cipher name at startup -/

/-- C4 counterexample: "rc5" is not in the supported-cipher catalog, yet
`enc_init` does not abort — it returns the table method (id 0) after
initializing the table cipher, so the process proceeds. -/
theorem enc_init_unknown_counterexample :
    enc_init (some "rc5") = EncInitResult.tableCipher TABLE ∧
      "rc5" ∉ supported_ciphers := by
  constructor
  · rfl
  · decide

/-- C4 amended: for every method name not in the supported-cipher catalog,
`enc_init` logs the invalid name and falls back to the table cipher
(returning method id TABLE) instead of aborting; the process then serves
connections under the table method. -/
theorem enc_init_unknown_falls_back (s : String) (hs : s ∉ supported_ciphers) :
    enc_init (some s) = EncInitResult.tableCipher TABLE := by
  have hidx : supported_ciphers.findIdx (fun c => c == s) = 18 := by
    have h18 : supported_ciphers.length = 18 := rfl
    rw [← h18]
    apply List.findIdx_eq_length.mpr
    intro x hx
    exact beq_eq_false_iff_ne.mpr (fun he => hs (he ▸ hx))
  simp only [enc_init, hidx]
  norm_num [CIPHER_NUM, TABLE]

/-- Witness for the amended C4 at a concrete input. -/
theorem enc_init_unknown_falls_back_witness :
    enc_init (some "aes-999-cfb") = EncInitResult.tableCipher TABLE :=
  enc_init_unknown_falls_back "aes-999-cfb" (by decide)

/-! ### C7: partial-write discipline -/

/-- C7: in both send callbacks, a short send of `s` bytes updates the
buffer by exactly `idx += s`, `len -= s` with the byte array untouched, so
the slice offered next is the unsent tail of the previous offer; a full
send resets `idx` and `len` to 0; and repeated application with at least
one byte of progress per call drains the buffer. -/
theorem partial_write_discipline :
    (∀ (buf : buffer_t) (s : ℕ), s ≤ buf.len →
      (server_send_step buf s).array = buf.array ∧
      (s < buf.len →
        (server_send_step buf s).idx = buf.idx + s ∧
        (server_send_step buf s).len = buf.len - s ∧
        unsent (server_send_step buf s) = (unsent buf).drop s) ∧
      (s = buf.len →
        (server_send_step buf s).idx = 0 ∧ (server_send_step buf s).len = 0)) ∧
    (∀ (buf : buffer_t) (s : ℕ), remote_send_step buf s = server_send_step buf s) ∧
    (∀ (buf : buffer_t) (steps : List ℕ), (∀ x ∈ steps, 1 ≤ x) →
      buf.len ≤ steps.length → (drain_steps buf steps).len = 0) := by
  refine ⟨?_, fun buf s => rfl, ?_⟩
  · intro buf s hs
    refine ⟨?_, ?_, ?_⟩
    · unfold server_send_step; split <;> rfl
    · intro hlt
      unfold server_send_step
      rw [if_pos hlt]
      refine ⟨rfl, rfl, ?_⟩
      unfold unsent
      simp only
      rw [List.drop_take, List.drop_drop]
    · intro he
      unfold server_send_step
      rw [if_neg (by omega)]
      exact ⟨rfl, rfl⟩
  · intro buf steps
    induction steps generalizing buf with
    | nil =>
      intro _ hlen
      simp only [List.length_nil, Nat.le_zero] at hlen
      simpa [drain_steps]
    | cons st rest ih =>
      intro hpos hlen
      have h1 : 1 ≤ st := hpos st (List.mem_cons_self _ _)
      show (drain_steps (remote_send_step buf (min st buf.len)) rest).len = 0
      apply ih _ (fun x hx => hpos x (List.mem_cons_of_mem _ hx))
      simp only [List.length_cons] at hlen
      unfold remote_send_step
      split
      case isTrue hlt =>
        show buf.len - min st buf.len ≤ rest.length
        omega
      case isFalse hge =>
        show (0 : ℕ) ≤ rest.length
        omega

/-- Witness for C7 at a concrete input. -/
theorem partial_write_discipline_witness :
    unsent (server_send_step ⟨[5, 6, 7, 8], 1, 3⟩ 2) = (unsent ⟨[5, 6, 7, 8], 1, 3⟩).drop 2 :=
  ((partial_write_discipline.1 ⟨[5, 6, 7, 8], 1, 3⟩ 2 (by decide)).2.1 (by decide)).2.2

/-! ### C8: stage-0 incomplete-IV wait -/

/-- C8: in stage 0, when the accumulated buffer after a receive is at most
the cipher's IV length, the handler returns `wait` — no `ss_decrypt` call,
no close, and the accumulated bytes are retained for the next receive. -/
theorem stage0_incomplete_iv_wait (method : ℕ) (f : List ℕ → ℕ) (g : ℕ → ℕ)
    (dtbl : List ℕ) (cache : List (List ℕ)) (dctx : Option enc_ctx_t)
    (buf recvd : List ℕ) (_hr : recvd ≠ [])
    (hlen : buf.length + recvd.length ≤ enc_iv_size method) :
    server_recv_stage0 method f g dtbl cache dctx buf recvd =
      Stage0Recv.wait (buf ++ recvd) := by
  unfold server_recv_stage0
  rw [if_pos (by simp only [List.length_append]; omega)]

/-- Witness for C8 at a concrete input: aes-256-cfb (IV length 16), 10 bytes
accumulated, 3 new bytes. -/
theorem stage0_incomplete_iv_wait_witness :
    server_recv_stage0 5 (fun _ => 0) (fun _ => 0) [] [] (mk_dec_ctx 5)
        [0, 1, 2, 3, 4, 5, 6, 7, 8, 9] [10, 11, 12] =
      Stage0Recv.wait [0, 1, 2, 3, 4, 5, 6, 7, 8, 9, 10, 11, 12] :=
  stage0_incomplete_iv_wait 5 (fun _ => 0) (fun _ => 0) [] [] (mk_dec_ctx 5)
    [0, 1, 2, 3, 4, 5, 6, 7, 8, 9] [10, 11, 12] (by decide) (by decide)

/-! ### C1: replay rejection on the first decrypt -/

/-- C1: on the first `ss_decrypt` call of a fresh decrypt context, for
every method other than table and rc4 (every id ≥ RC4_MD5), the leading
`enc_iv_size method` bytes are read as the IV; a replay-cache hit fails the
call (result `none`, connection closed) with the cache unchanged — no
insertion; a miss succeeds and inserts the IV; and the cache holds at most
256 entries, evicting oldest-first when full. -/
theorem replay_rejection (method : ℕ) (f : List ℕ → ℕ) (g : ℕ → ℕ)
    (dtbl : List ℕ) (cache : List (List ℕ)) (cipher : List ℕ)
    (hm1 : RC4_MD5 ≤ method) (_hm2 : method < CIPHER_NUM) :
    (cache_key_exist cache (cipher.take (enc_iv_size method)) = true →
      ss_decrypt method f g dtbl cache (mk_dec_ctx method) cipher = (none, cache)) ∧
    (cache_key_exist cache (cipher.take (enc_iv_size method)) = false →
      (ss_decrypt method f g dtbl cache (mk_dec_ctx method) cipher).2 =
        cache_insert cache (cipher.take (enc_iv_size method)) ∧
      ∃ plain ctx',
        (ss_decrypt method f g dtbl cache (mk_dec_ctx method) cipher).1 =
          some (plain, some ctx') ∧
        ctx'.iv = cipher.take (enc_iv_size method) ∧ ctx'.init = true) ∧
    (∀ k : List ℕ, cache.length ≤ 256 → (cache_insert cache k).length ≤ 256) ∧
    (∀ k : List ℕ, cache.length = 256 → cache_insert cache k = cache.tail ++ [k]) := by
  have hT : ¬ method = TABLE := by
    unfold TABLE; unfold RC4_MD5 at hm1; omega
  refine ⟨?_, ?_, ?_, ?_⟩
  · intro hhit
    simp [ss_decrypt, mk_dec_ctx, hT, hm1, hhit]
  · intro hmiss
    by_cases hs : SALSA20 ≤ method
    · refine ⟨by simp [ss_decrypt, mk_dec_ctx, hT, hm1, hmiss, hs], ?_⟩
      simp only [ss_decrypt, mk_dec_ctx, if_neg hT]
      simp [hm1, hmiss, hs]
      exact ⟨_, _, ⟨rfl, rfl⟩, rfl, rfl⟩
    · refine ⟨by simp [ss_decrypt, mk_dec_ctx, hT, hm1, hmiss, hs], ?_⟩
      simp only [ss_decrypt, mk_dec_ctx, if_neg hT]
      simp [hm1, hmiss, hs]
      exact ⟨_, _, ⟨rfl, rfl⟩, rfl, rfl⟩
  · intro k hle
    unfold cache_insert
    split
    case isTrue h =>
      simp only [List.length_tail, List.length_append, List.length_singleton] at *
      omega
    case isFalse h =>
      simp only [List.length_append, List.length_singleton] at *
      omega
  · intro k h256
    unfold cache_insert
    rw [if_pos (by simp [List.length_append, h256])]
    rcases cache with _ | ⟨c0, cs⟩
    · simp at h256
    · simp

/-- Witness for C1 at a concrete input: aes-256-cfb, an empty cache, a
17-byte ciphertext. -/
theorem replay_rejection_witness :
    (ss_decrypt 5 (fun _ => 0) (fun _ => 0) [] [] (mk_dec_ctx 5)
        [0, 1, 2, 3, 4, 5, 6, 7, 8, 9, 10, 11, 12, 13, 14, 15, 99]).2 =
      cache_insert [] ([0, 1, 2, 3, 4, 5, 6, 7, 8, 9, 10, 11, 12, 13, 14, 15, 99].take
        (enc_iv_size 5)) :=
  ((replay_rejection 5 (fun _ => 0) (fun _ => 0) [] []
      [0, 1, 2, 3, 4, 5, 6, 7, 8, 9, 10, 11, 12, 13, 14, 15, 99]
      (by decide) (by decide)).2.1 (by decide)).1

/-! ### C2: crypto round-trip -/

theorem cipher_update_roundtrip (f : List ℕ → ℕ) (p : List ℕ) : ∀ h : List ℕ,
    cipher_update_dec f h (cipher_update_enc f h p).1 = (p, (cipher_update_enc f h p).2) := by
  induction p with
  | nil => intro h; rfl
  | cons b bs ih =>
    intro h
    simp only [cipher_update_enc, cipher_update_dec, Nat.xor_cancel_right, ih]

theorem xor_ic_involution (g : ℕ → ℕ) (m : List ℕ) : ∀ pos : ℕ,
    xor_ic_go g pos (xor_ic_go g pos m) = m := by
  induction m with
  | nil => intro pos; rfl
  | cons b bs ih => intro pos; simp [xor_ic_go, Nat.xor_cancel_right, ih]

theorem merge_perm (salt key : ℕ) : ∀ (l r : List ℕ),
    List.Perm (merge salt key l r) (l ++ r) := by
  have H : ∀ (n : ℕ) (l r : List ℕ), l.length + r.length ≤ n →
      List.Perm (merge salt key l r) (l ++ r) := by
    intro n
    induction n with
    | zero =>
      intro l r h
      match l, r with
      | [], [] => simp [merge]
      | [], _ :: _ => simp at h
      | _ :: _, _ => simp at h
    | succ n ih =>
      intro l r h
      match l, r with
      | [], r => simp [merge]
      | x :: ls, [] => simp [merge]
      | x :: ls, y :: rs =>
        rw [merge]
        split
        · exact List.Perm.cons x (ih ls (y :: rs) (by simp at h ⊢; omega))
        · refine List.Perm.trans (List.Perm.cons y (ih (x :: ls) rs (by simp at h ⊢; omega))) ?_
          exact List.perm_middle.symm
  intro l r
  exact H (l.length + r.length) l r le_rfl

theorem merge_sort_perm (salt key : ℕ) : ∀ (l : List ℕ),
    List.Perm (merge_sort salt key l) l := by
  have H : ∀ (n : ℕ) (l : List ℕ), l.length ≤ n →
      List.Perm (merge_sort salt key l) l := by
    intro n
    induction n with
    | zero =>
      intro l h
      rw [merge_sort, if_pos (by omega)]
    | succ n ih =>
      intro l h
      rw [merge_sort]
      split
      case isTrue => exact List.Perm.refl l
      case isFalse hlen =>
        have h2 : 2 ≤ l.length := by omega
        have hmid : l.length / 2 ≥ 1 := by omega
        have htk : (l.take (l.length - l.length / 2)).length ≤ n := by
          rw [List.length_take]; omega
        have hdr : (l.drop (l.length - l.length / 2)).length ≤ n := by
          rw [List.length_drop]; omega
        refine List.Perm.trans (merge_perm salt key _ _) ?_
        refine List.Perm.trans (List.Perm.append (ih _ htk) (ih _ hdr)) ?_
        rw [List.take_append_drop]
  intro l
  exact H l.length l le_rfl

theorem enc_table_init_perm (key : ℕ) :
    List.Perm (enc_table_init key) (List.range 256) := by
  unfold enc_table_init
  have H : ∀ (L : List ℕ) (t : List ℕ), List.Perm t (List.range 256) →
      List.Perm (L.foldl (fun t i => merge_sort (i + 1) key t) t) (List.range 256) := by
    intro L
    induction L with
    | nil => intro t ht; simpa
    | cons a as ih =>
      intro t ht
      exact ih _ (List.Perm.trans (merge_sort_perm (a + 1) key t) ht)
  exact H _ _ (List.Perm.refl _)

theorem enc_table_init_length (key : ℕ) : (enc_table_init key).length = 256 :=
  (enc_table_init_perm key).length_eq.trans (List.length_range 256)

theorem enc_table_init_nodup (key : ℕ) : (enc_table_init key).Nodup :=
  (enc_table_init_perm key).nodup_iff.mpr (List.nodup_range 256)

theorem enc_table_init_lt (key : ℕ) (b : ℕ) (hb : b < 256) :
    (enc_table_init key).getD b 0 < 256 := by
  have hlen : b < (enc_table_init key).length := by rw [enc_table_init_length]; omega
  rw [List.getD_eq_getElem _ _ hlen]
  have hmem : (enc_table_init key)[b] ∈ enc_table_init key := List.getElem_mem hlen
  exact List.mem_range.mp ((enc_table_init_perm key).mem_iff.mp hmem)

theorem enc_table_init_inj (key : ℕ) (b1 b2 : ℕ) (h1 : b1 < 256) (h2 : b2 < 256)
    (he : (enc_table_init key).getD b1 0 = (enc_table_init key).getD b2 0) : b1 = b2 := by
  have hl1 : b1 < (enc_table_init key).length := by rw [enc_table_init_length]; omega
  have hl2 : b2 < (enc_table_init key).length := by rw [enc_table_init_length]; omega
  rw [List.getD_eq_getElem _ _ hl1, List.getD_eq_getElem _ _ hl2] at he
  exact (enc_table_init_nodup key).getElem_inj_iff.mp he

theorem getD_set_ne (d : List ℕ) (i p v : ℕ) (h : i ≠ p) :
    (d.set i v).getD p 0 = d.getD p 0 := by
  by_cases hp : p < d.length
  · rw [List.getD_eq_getElem _ _ (by simpa using hp), List.getD_eq_getElem _ _ hp,
      List.getElem_set_ne h]
  · rw [List.getD_eq_default _ _ (by simpa using hp), List.getD_eq_default _ _ (by omega)]

theorem getD_set_self (d : List ℕ) (i v : ℕ) (h : i < d.length) :
    (d.set i v).getD i 0 = v := by
  rw [List.getD_eq_getElem _ _ (by simpa using h), List.getElem_set_self]

theorem foldl_set_preserve (e : List ℕ) (L : List ℕ) (p : ℕ)
    (hp : ∀ j ∈ L, e.getD j 0 ≠ p) : ∀ d : List ℕ,
    (L.foldl (fun d i => d.set (e.getD i 0) i) d).getD p 0 = d.getD p 0 := by
  induction L with
  | nil => intro d; rfl
  | cons a as ih =>
    intro d
    rw [List.foldl_cons,
      ih (fun j hj => hp j (List.mem_cons_of_mem _ hj)) _,
      getD_set_ne _ _ _ _ (hp a (List.mem_cons_self _ _))]

theorem foldl_set_hits (e : List ℕ) : ∀ (L : List ℕ) (d : List ℕ) (b : ℕ),
    b ∈ L →
    (∀ j1 ∈ L, ∀ j2 ∈ L, e.getD j1 0 = e.getD j2 0 → j1 = j2) →
    e.getD b 0 < d.length →
    (L.foldl (fun d i => d.set (e.getD i 0) i) d).getD (e.getD b 0) 0 = b := by
  intro L
  induction L with
  | nil => intro d b hb; exact absurd hb (List.not_mem_nil b)
  | cons a as ih =>
    intro d b hb hinj hlt
    rw [List.foldl_cons]
    by_cases hbas : b ∈ as
    · exact ih _ b hbas
        (fun j1 h1 j2 h2 => hinj j1 (List.mem_cons_of_mem _ h1) j2 (List.mem_cons_of_mem _ h2))
        (by rwa [List.length_set])
    · have hba : b = a := by
        rcases List.mem_cons.mp hb with h | h
        · exact h
        · exact absurd h hbas
      subst hba
      rw [foldl_set_preserve]
      · exact getD_set_self d _ b hlt
      · intro j hj he
        exact hbas (hinj j (List.mem_cons_of_mem _ hj) b (List.mem_cons_self _ _) he ▸ hj)

theorem dec_table_inverts (key : ℕ) (b : ℕ) (hb : b < 256) :
    (dec_table_init key).getD ((enc_table_init key).getD b 0) 0 = b := by
  unfold dec_table_init
  apply foldl_set_hits
  · exact List.mem_range.mpr hb
  · intro j1 h1 j2 h2 he
    exact enc_table_init_inj key j1 j2 (List.mem_range.mp h1) (List.mem_range.mp h2) he
  · rw [List.length_replicate]
    exact enc_table_init_lt key b hb

theorem table_roundtrip_map (key : ℕ) (P : List ℕ) (hb : ∀ b ∈ P, b < 256) :
    (P.map (fun b => (enc_table_init key).getD b 0)).map
      (fun c => (dec_table_init key).getD c 0) = P := by
  induction P with
  | nil => rfl
  | cons b bs ih =>
    simp only [List.map_cons, List.cons.injEq]
    constructor
    · exact dec_table_inverts key b (hb b (List.mem_cons_self _ _))
    · exact ih (fun x hx => hb x (List.mem_cons_of_mem _ hx))

/-- C2: for every supported cipher method, running `ss_encrypt` on a fresh
encrypt context (prepending the random IV) and `ss_decrypt` on a fresh
decrypt context over the resulting bytes (consuming that IV, which must not
already sit in the replay cache) recovers the plaintext exactly.  The
keystream functions `f` (EVP stream/CFB) and `g` (Salsa/ChaCha) model the
external cipher library; `key` seeds the table cipher. -/
theorem crypto_round_trip (method : ℕ) (f : List ℕ → ℕ) (g : ℕ → ℕ) (key : ℕ)
    (cache : List (List ℕ)) (iv0 P : List ℕ)
    (_hm : method < CIPHER_NUM)
    (hiv : iv0.length = enc_iv_size method)
    (hcache : cache_key_exist cache iv0 = false)
    (_hP : P.length ≤ 65536)
    (hbytes : ∀ b ∈ P, b < 256) :
    ((ss_decrypt method f g (dec_table_init key) cache (mk_dec_ctx method)
        (ss_encrypt method f g (enc_table_init key) (mk_enc_ctx method iv0) P).1).1).map
      Prod.fst = some P := by
  have htake : ∀ X : List ℕ, (iv0 ++ X).take (enc_iv_size method) = iv0 := by
    intro X; rw [← hiv]; exact List.take_left iv0 X
  have hdrop : ∀ X : List ℕ, (iv0 ++ X).drop (enc_iv_size method) = X := by
    intro X; rw [← hiv]; exact List.drop_left iv0 X
  by_cases h0 : method = TABLE
  · subst h0
    simp only [ss_encrypt, ss_decrypt, mk_enc_ctx, mk_dec_ctx, if_pos rfl]
    exact congrArg some (table_roundtrip_map key P hbytes)
  · rw [mk_enc_ctx, if_neg h0, mk_dec_ctx, if_neg h0]
    by_cases hs : SALSA20 ≤ method
    · simp [ss_encrypt, ss_decrypt, hs, htake, hdrop, hcache,
        xor_ic_involution, crypto_stream_xor_ic]
    · simp [ss_encrypt, ss_decrypt, hs, htake, hdrop, hcache, cipher_update_roundtrip]

/-- Witness for C2 at a concrete input: aes-256-cfb, constant keystreams,
a three-byte plaintext. -/
theorem crypto_round_trip_witness :
    ((ss_decrypt 5 (fun _ => 7) (fun _ => 7) (dec_table_init 0) [] (mk_dec_ctx 5)
        (ss_encrypt 5 (fun _ => 7) (fun _ => 7) (enc_table_init 0) (mk_enc_ctx 5
          [0, 1, 2, 3, 4, 5, 6, 7, 8, 9, 10, 11, 12, 13, 14, 15]) [1, 2, 3]).1).1).map
      Prod.fst = some [1, 2, 3] :=
  crypto_round_trip 5 (fun _ => 7) (fun _ => 7) 0 []
    [0, 1, 2, 3, 4, 5, 6, 7, 8, 9, 10, 11, 12, 13, 14, 15] [1, 2, 3]
    (by decide) (by decide) (by decide) (by decide) (by decide)

/-! ### C3: chunk-auth round-trip -/

theorem ntohs_htons (n : ℕ) (h : n < 65536) : ntohs (htons n) = n := by
  unfold ntohs htons
  simp only [List.getD_cons_zero, List.getD_cons_succ]
  rw [Nat.mod_eq_of_lt (by omega : n / 256 < 256)]
  omega

theorem safe_memcmp_take_append (hsh p : List ℕ)
    (hlen : ONETIMEAUTH_BYTES ≤ hsh.length) :
    safe_memcmp hsh (hsh.take ONETIMEAUTH_BYTES ++ p) ONETIMEAUTH_BYTES = 0 := by
  apply (safe_memcmp_eq_zero_iff _ _ _).mpr
  intro i hi
  have h1 : i < (hsh.take ONETIMEAUTH_BYTES).length := by
    rw [List.length_take]; omega
  rw [List.getD_append _ _ _ _ h1]
  rw [List.length_take] at h1
  have hi2 : i < hsh.length := by omega
  rw [List.getD_eq_getElem _ _ hi2,
    List.getD_eq_getElem _ _ (by rw [List.length_take]; omega), List.getElem_take]

theorem check_go_no_trigger (hmac : List ℕ → List ℕ → List ℕ) (iv : List ℕ)
    (cb out rest : List ℕ) (b clen c : ℕ)
    (h2 : cb.length + 1 ≠ CLEN_BYTES) (h12 : cb.length + 1 ≠ clen + AUTH_BYTES) :
    ss_check_hash_go hmac iv ⟨cb, clen, c⟩ out (b :: rest) =
      ss_check_hash_go hmac iv ⟨cb ++ [b], clen, c⟩ out rest := by
  have hlb : (cb ++ [b]).length = cb.length + 1 := by simp
  simp only [ss_check_hash_go]
  rw [if_neg (show ¬((cb ++ [b]).length = CLEN_BYTES) by rw [hlb]; exact h2),
    if_neg (show ¬((cb ++ [b]).length = clen + AUTH_BYTES) by rw [hlb]; exact h12)]

theorem check_go_latch (hmac : List ℕ → List ℕ → List ℕ) (iv : List ℕ)
    (out rest : List ℕ) (b0 b1 c stale : ℕ) :
    ss_check_hash_go hmac iv ⟨[b0], stale, c⟩ out (b1 :: rest) =
      ss_check_hash_go hmac iv ⟨[b0, b1], ntohs [b0, b1], c⟩ out rest := by
  simp only [ss_check_hash_go, List.cons_append, List.nil_append]
  rw [if_pos (show ([b0, b1] : List ℕ).length = CLEN_BYTES from rfl),
    if_neg (show ¬(([b0, b1] : List ℕ).length = ntohs [b0, b1] + AUTH_BYTES) by
      show ¬(2 = ntohs [b0, b1] + AUTH_BYTES)
      unfold AUTH_BYTES
      omega)]

theorem check_go_trigger (hmac : List ℕ → List ℕ → List ℕ) (iv : List ℕ)
    (cb out rest : List ℕ) (b clen c : ℕ)
    (h2 : cb.length + 1 ≠ CLEN_BYTES) (h12 : cb.length + 1 = clen + AUTH_BYTES) :
    ss_check_hash_go hmac iv ⟨cb, clen, c⟩ out (b :: rest) =
      if safe_memcmp (hmac (iv ++ htonl c) ((cb ++ [b]).drop AUTH_BYTES))
          ((cb ++ [b]).drop CLEN_BYTES) ONETIMEAUTH_BYTES = 0
      then ss_check_hash_go hmac iv ⟨[], clen, c + 1⟩
        (out ++ (cb ++ [b]).drop AUTH_BYTES) rest
      else none := by
  have hlb : (cb ++ [b]).length = cb.length + 1 := by simp
  simp only [ss_check_hash_go]
  rw [if_neg (show ¬((cb ++ [b]).length = CLEN_BYTES) by rw [hlb]; exact h2),
    if_pos (show (cb ++ [b]).length = clen + AUTH_BYTES by rw [hlb]; exact h12)]

theorem check_go_fill (hmac : List ℕ → List ℕ → List ℕ) (iv : List ℕ) :
    ∀ (m cb out rest : List ℕ) (clen c : ℕ),
    2 ≤ cb.length → cb.length + m.length < clen + AUTH_BYTES →
    ss_check_hash_go hmac iv ⟨cb, clen, c⟩ out (m ++ rest) =
      ss_check_hash_go hmac iv ⟨cb ++ m, clen, c⟩ out rest := by
  intro m
  induction m with
  | nil => intro cb out rest clen c _ _; rw [List.nil_append, List.append_nil]
  | cons b m' ih =>
    intro cb out rest clen c hcb hlt
    have hml : (b :: m').length = m'.length + 1 := by simp
    have hlb : (cb ++ [b]).length = cb.length + 1 := by simp
    rw [hml] at hlt
    rw [List.cons_append,
      check_go_no_trigger hmac iv cb out _ b clen c
        (by unfold CLEN_BYTES; omega) (by omega),
      ih (cb ++ [b]) out rest clen c (by omega) (by omega)]
    simp only [List.append_assoc, List.singleton_append]

theorem check_go_frame (hmac : List ℕ → List ℕ → List ℕ) (iv : List ℕ)
    (p out rest : List ℕ) (c stale : ℕ)
    (hp : p.length ≤ 65535)
    (hh : ∀ k m, (hmac k m).length = 20) :
    ss_check_hash_go hmac iv ⟨[], stale, c⟩ out ((ss_gen_hash hmac iv p c).1 ++ rest) =
      ss_check_hash_go hmac iv ⟨[], p.length, c + 1⟩ (out ++ p) rest := by
  have hhl : (hmac (iv ++ htonl c) p).length = 20 := hh _ _
  set hsh := (hmac (iv ++ htonl c) p).take ONETIMEAUTH_BYTES with hhsh
  have hhsl : hsh.length = ONETIMEAUTH_BYTES := by
    rw [hhsh, List.length_take, hhl]; rfl
  set mid := hsh ++ p with hmid
  have hmidlen : mid.length = 10 + p.length := by
    rw [hmid, List.length_append, hhsl]; rfl
  have hmidne : mid ≠ [] := by
    intro hcon
    have := congrArg List.length hcon
    rw [hmidlen] at this
    simp at this
  -- unfold the frame into the first two length bytes and the remainder
  have hframe : (ss_gen_hash hmac iv p c).1 ++ rest =
      p.length / 256 % 256 :: (p.length % 256 :: (mid ++ rest)) := by
    simp only [ss_gen_hash, htons, hmid, hhsh]
    simp [List.append_assoc]
  rw [hframe]
  -- byte 1: no trigger
  have h1 : ss_check_hash_go hmac iv ⟨[], stale, c⟩ out
      (p.length / 256 % 256 :: (p.length % 256 :: (mid ++ rest))) =
      ss_check_hash_go hmac iv ⟨[p.length / 256 % 256], stale, c⟩ out
        (p.length % 256 :: (mid ++ rest)) :=
    check_go_no_trigger hmac iv [] out _ _ stale c
      (by simp [CLEN_BYTES]) (by simp [AUTH_BYTES])
  rw [h1]
  -- byte 2: latch the length
  rw [check_go_latch]
  have hn : ntohs [p.length / 256 % 256, p.length % 256] = p.length := by
    have := ntohs_htons p.length (by omega)
    simpa [htons] using this
  rw [hn]
  -- bytes 3 .. 11 + n: fill without trigger
  have hsplit : mid ++ rest = mid.dropLast ++ (mid.getLast hmidne :: rest) := by
    conv_lhs => rw [← List.dropLast_append_getLast hmidne]
    rw [List.append_assoc]
    rfl
  rw [hsplit,
    check_go_fill hmac iv mid.dropLast [p.length / 256 % 256, p.length % 256]
      out _ p.length c (by simp)
      (by
        show 2 + mid.dropLast.length < p.length + AUTH_BYTES
        rw [List.length_dropLast, hmidlen]
        unfold AUTH_BYTES
        omega)]
  -- final byte: trigger and verify
  have hfull : ([p.length / 256 % 256, p.length % 256] ++ mid.dropLast) ++ [mid.getLast hmidne] =
      [p.length / 256 % 256, p.length % 256] ++ mid := by
    rw [List.append_assoc, List.dropLast_append_getLast hmidne]
  have hlen2 : ([p.length / 256 % 256, p.length % 256] ++ mid.dropLast).length + 1 =
      p.length + AUTH_BYTES := by
    simp only [List.length_append, List.length_cons, List.length_nil, List.length_dropLast,
      hmidlen]
    unfold AUTH_BYTES
    omega
  rw [check_go_trigger hmac iv _ out rest _ p.length c
    (by simp [CLEN_BYTES]) hlen2, hfull]
  have hdrop12 : ([p.length / 256 % 256, p.length % 256] ++ mid).drop AUTH_BYTES = p := by
    rw [hmid, ← List.append_assoc]
    have : ([p.length / 256 % 256, p.length % 256] ++ hsh).length = AUTH_BYTES := by
      simp only [List.length_append, List.length_cons, List.length_nil, hhsl]
      rfl
    rw [← this, List.drop_left]
  have hdrop2 : ([p.length / 256 % 256, p.length % 256] ++ mid).drop CLEN_BYTES = mid := by
    have : ([p.length / 256 % 256, p.length % 256] : List ℕ).length = CLEN_BYTES := rfl
    rw [← this, List.drop_left]
  rw [hdrop12, hdrop2, hmid, hhsh,
    if_pos (safe_memcmp_take_append _ p (by rw [hhl]; unfold ONETIMEAUTH_BYTES; omega))]

theorem emit_chunks_counter (hmac : List ℕ → List ℕ → List ℕ) (iv : List ℕ) :
    ∀ (chunks : List (List ℕ)) (c : ℕ),
    (emit_chunks hmac iv c chunks).2 = c + chunks.length := by
  intro chunks
  induction chunks with
  | nil => intro c; simp [emit_chunks]
  | cons p ps ih =>
    intro c
    simp only [emit_chunks, ss_gen_hash, ih, List.length_cons]
    omega

theorem check_go_emit (hmac : List ℕ → List ℕ → List ℕ) (iv : List ℕ)
    (hh : ∀ k m, (hmac k m).length = 20) :
    ∀ (chunks : List (List ℕ)) (c stale : ℕ) (out : List ℕ),
    (∀ p ∈ chunks, p.length ≤ 65535) →
    ∃ fl, ss_check_hash_go hmac iv ⟨[], stale, c⟩ out (emit_chunks hmac iv c chunks).1 =
      some (out ++ chunks.flatten, ⟨[], fl, c + chunks.length⟩) := by
  intro chunks
  induction chunks with
  | nil =>
    intro c stale out _
    exact ⟨stale, by simp [emit_chunks, ss_check_hash_go]⟩
  | cons p ps ih =>
    intro c stale out hlens
    simp only [emit_chunks, List.append_assoc]
    rw [show (ss_gen_hash hmac iv p c).2 = c + 1 from rfl]
    rw [check_go_frame hmac iv p out _ c stale
      (hlens p (List.mem_cons_self _ _)) hh]
    obtain ⟨fl, hfl⟩ := ih (c + 1) p.length (out ++ p)
      (fun q hq => hlens q (List.mem_cons_of_mem _ hq))
    refine ⟨fl, ?_⟩
    rw [hfl]
    simp only [List.flatten_cons, List.append_assoc, List.length_cons]
    have harith : c + 1 + ps.length = c + (ps.length + 1) := by omega
    rw [harith]

/-- C3: framing every chunk of a stream with `ss_gen_hash` and feeding the
concatenated frames through `ss_check_hash` on fresh state reproduces the
stream, returns success, and both the emitter's counter and the verifier's
chunk counter start at 0 and end equal to the number of chunks
(`ss_gen_hash` adds exactly 1 per chunk emitted). -/
theorem chunk_auth_round_trip (hmac : List ℕ → List ℕ → List ℕ) (iv : List ℕ)
    (chunks : List (List ℕ))
    (hlen : ∀ p ∈ chunks, 1 ≤ p.length ∧ p.length ≤ BUF_SIZE)
    (hh : ∀ k m, (hmac k m).length = 20) :
    (∃ res, ss_check_hash hmac iv ⟨[], 0, 0⟩ (emit_chunks hmac iv 0 chunks).1 =
        some res ∧ res.1 = chunks.flatten ∧ res.2.counter = chunks.length) ∧
    (emit_chunks hmac iv 0 chunks).2 = chunks.length ∧
    (∀ (p : List ℕ) (c : ℕ), (ss_gen_hash hmac iv p c).2 = c + 1) := by
  refine ⟨?_, ?_, fun p c => rfl⟩
  · obtain ⟨fl, hfl⟩ := check_go_emit hmac iv hh chunks 0 0 []
      (fun p hp => by have := (hlen p hp).2; unfold BUF_SIZE at this; omega)
    refine ⟨(chunks.flatten, ⟨[], fl, chunks.length⟩), ?_, rfl, rfl⟩
    unfold ss_check_hash
    rw [hfl]
    simp
  · exact (emit_chunks_counter hmac iv chunks 0).trans (by omega)

/-- Witness for C3 at a concrete input: two chunks, a constant 20-byte
digest function. -/
theorem chunk_auth_round_trip_witness :
    (∃ res, ss_check_hash (fun _ _ => List.replicate 20 3) [9]
        ⟨[], 0, 0⟩ (emit_chunks (fun _ _ => List.replicate 20 3) [9] 0 [[1], [2, 3]]).1 =
        some res ∧ res.1 = [[1], [2, 3]].flatten ∧ res.2.counter = 2) ∧
    (emit_chunks (fun _ _ => List.replicate 20 3) [9] 0 [[1], [2, 3]]).2 = 2 := by
  have h := chunk_auth_round_trip (fun _ _ => List.replicate 20 3) [9] [[1], [2, 3]]
    (by decide) (fun k m => by simp)
  exact ⟨h.1, h.2.1⟩

/-! ### C5: header-implied auth transition -/

/-- C5: for a connection whose configured auth flag is 0, if the header's
ATYP byte has the ONETIMEAUTH_FLAG bit set, the server still runs the
10-byte header HMAC verification (key `IV ++ K`): a too-short header or a
MAC mismatch closes the connection, and on success the connection's auth
flag becomes 1 — after which the stage-5 receive path chunk-authenticates
every request-direction chunk via `ss_check_hash`. -/
theorem header_implied_auth (hmac : List ℕ → List ℕ → List ℕ)
    (key ivd buf : List ℕ) (sa : Bool)
    (hflag : buf.getD 0 0 &&& ONETIMEAUTH_FLAG ≠ 0) :
    (buf.length < 1 + parse_header_len (buf.getD 0 0) buf 1 + ONETIMEAUTH_BYTES →
      stage0_auth_step hmac false key ivd buf sa = AuthStep.closed) ∧
    (1 + parse_header_len (buf.getD 0 0) buf 1 + ONETIMEAUTH_BYTES ≤ buf.length →
      ss_onetimeauth_verify hmac ivd key
        (buf.take (1 + parse_header_len (buf.getD 0 0) buf 1 + ONETIMEAUTH_BYTES)) ≠ 0 →
      stage0_auth_step hmac false key ivd buf sa = AuthStep.closed) ∧
    (1 + parse_header_len (buf.getD 0 0) buf 1 + ONETIMEAUTH_BYTES ≤ buf.length →
      ss_onetimeauth_verify hmac ivd key
        (buf.take (1 + parse_header_len (buf.getD 0 0) buf 1 + ONETIMEAUTH_BYTES)) = 0 →
      stage0_auth_step hmac false key ivd buf sa = AuthStep.ok buf true) ∧
    (∀ (ch : chunk_t) (b : List ℕ),
      stage5_verify hmac ivd true ch b = ss_check_hash hmac ivd ch b) := by
  refine ⟨?_, ?_, ?_, fun ch b => rfl⟩
  · intro hshort
    unfold stage0_auth_step
    rw [if_pos (Or.inr hflag), if_pos hshort]
  · intro hlong hbad
    unfold stage0_auth_step
    rw [if_pos (Or.inr hflag), if_neg (by omega), if_pos hbad]
  · intro hlong hgood
    unfold stage0_auth_step
    rw [if_pos (Or.inr hflag), if_neg (by omega),
      if_neg (by simp only [ne_eq, Decidable.not_not]; exact hgood)]

/-- Witness for C5 at a concrete input: ATYP = 0x11 (IPv4 with the
one-time-auth flag), a correctly tagged 17-byte header, configured auth
off. -/
theorem header_implied_auth_witness :
    stage0_auth_step (fun _ _ => List.replicate 20 0) false [7] [8]
        ([17, 1, 2, 3, 4, 0, 80] ++ List.replicate 10 0) false = AuthStep.ok
        ([17, 1, 2, 3, 4, 0, 80] ++ List.replicate 10 0) true :=
  (header_implied_auth (fun _ _ => List.replicate 20 0) [7] [8]
      ([17, 1, 2, 3, 4, 0, 80] ++ List.replicate 10 0) false
      (by decide)).2.2.1 (by decide) (by decide)

/-! ### C6: backpressure invariant -/

theorem relay_inv_reachable : ∀ s, Reachable s → RelayInv s := by
  intro s hr
  induction hr with
  | entry =>
    intro _
    exact ⟨rfl, rfl, fun h => Bool.noConfusion h, fun h => Bool.noConfusion h⟩
  | step hprev hstep ih =>
    cases hstep with
    | srvRecvClose h hw => intro hcl; exact absurd hcl (by simp [closeAll])
    | srvRecvOk L h hw => exact fun hcl => ih hcl
    | srvRecvAgain L h hw =>
      intro hcl
      obtain ⟨i1, i2, i3, i4⟩ := ih hcl
      exact ⟨rfl, i2, fun _ => rfl, i4⟩
    | srvRecvShort L n h hw hn =>
      intro hcl
      obtain ⟨i1, i2, i3, i4⟩ := ih hcl
      exact ⟨rfl, i2, fun _ => rfl, i4⟩
    | remSendEmpty h hw hl => intro hcl; exact absurd hcl (by simp [closeAll])
    | remSendErr h hw => intro hcl; exact absurd hcl (by simp [closeAll])
    | remSendAgain h hw hl => exact ih
    | remSendShort n h hw hn => exact fun hcl => ih hcl
    | remSendFull h hw hl =>
      intro hcl
      obtain ⟨i1, i2, i3, i4⟩ := ih hcl
      exact ⟨rfl, i2, fun hb => Bool.noConfusion hb, i4⟩
    | remRecvClose h hw => intro hcl; exact absurd hcl (by simp [closeAll])
    | remRecvOk L h hw => exact fun hcl => ih hcl
    | remRecvAgain L h hw =>
      intro hcl
      obtain ⟨i1, i2, i3, i4⟩ := ih hcl
      exact ⟨i1, rfl, i3, fun _ => rfl⟩
    | remRecvShort L n h hw hn =>
      intro hcl
      obtain ⟨i1, i2, i3, i4⟩ := ih hcl
      exact ⟨i1, rfl, i3, fun _ => rfl⟩
    | srvSendEmpty h hw hl => intro hcl; exact absurd hcl (by simp [closeAll])
    | srvSendErr h hw => intro hcl; exact absurd hcl (by simp [closeAll])
    | srvSendAgain h hw hl => exact ih
    | srvSendShort n h hw hn => exact fun hcl => ih hcl
    | srvSendFull h hw hl =>
      intro hcl
      obtain ⟨i1, i2, i3, i4⟩ := ih hcl
      exact ⟨i1, rfl, i3, fun hb => Bool.noConfusion hb⟩
    | timeoutClose h => intro hcl; exact absurd hcl (by simp [closeAll])

/-- C6: in every reachable state of the relay stage, whenever a side's
pending send buffer is non-empty (a send returned EAGAIN or a short count
and has not yet drained — the parked flag), the originating peer socket's
read watcher is stopped; and a stopped read watcher is restarted only by
the transition that fully drains the corresponding send buffer, which
resets its `len` and `idx` to 0 and clears the parked flag. -/
theorem backpressure_invariant :
    (∀ s : RelayState, Reachable s → s.closed = false →
      (s.rem_parked = true → s.srv_read = false) ∧
      (s.srv_parked = true → s.rem_read = false)) ∧
    (∀ s s' : RelayState, Step s s' → s.srv_read = false → s'.srv_read = true →
      s'.rem_len = 0 ∧ s'.rem_idx = 0 ∧ s'.rem_parked = false) ∧
    (∀ s s' : RelayState, Step s s' → s.rem_read = false → s'.rem_read = true →
      s'.srv_len = 0 ∧ s'.srv_idx = 0 ∧ s'.srv_parked = false) := by
  refine ⟨?_, ?_, ?_⟩
  · intro s hr hcl
    obtain ⟨i1, i2, i3, i4⟩ := relay_inv_reachable s hr hcl
    exact ⟨fun hp => i3 (i1 ▸ hp), fun hp => i4 (i2 ▸ hp)⟩
  · intro s s' hstep hoff hon
    cases hstep <;>
      first
        | exact ⟨rfl, rfl, rfl⟩
        | simp [closeAll, hoff] at hon
  · intro s s' hstep hoff hon
    cases hstep <;>
      first
        | exact ⟨rfl, rfl, rfl⟩
        | simp [closeAll, hoff] at hon

/-- Witness for C6 at the relay-entry state. -/
theorem backpressure_invariant_witness :
    (relay_init.rem_parked = true → relay_init.srv_read = false) ∧
    (relay_init.srv_parked = true → relay_init.rem_read = false) :=
  backpressure_invariant.1 relay_init Reachable.entry rfl

end Shadowsocks
